import Mathlib

set_option maxRecDepth 10000

/-!
Verification development for the url2md scrape service.

Each definition is a shallow embedding of a function of the repository
(file and symbol named in the doc comment).  Machine time (`Date.now()`)
is passed explicitly as a `Nat` parameter; asynchronous effects (DNS
lookup, HTTP fetches, readability parsing, the headless browser) are
passed as explicit oracle values describing the outcome of the effect.
-/

namespace Url2md

/-! ## LRU cache — `src/cache.js`, class `LRUCache`

The JS class stores entries in a `Map`; JS `Map` preserves insertion
order, so the first key is the least-recently-used one.  We model the
map as an association list whose head is the oldest entry and whose
last element is the most recently inserted/promoted one.
-/

/-- One cache entry `{ value, ts }` as stored by `LRUCache.set`. -/
structure CacheEntry (V : Type) where
  value : V
  ts : Nat
  deriving Repr, DecidableEq

/-- The `LRUCache` instance state: `maxSize`, `ttlMs` and the backing map. -/
structure LRU (V : Type) where
  maxSize : Nat
  ttlMs : Nat
  map : List (String × CacheEntry V)
  deriving Repr, DecidableEq

/-- Constructor `new LRUCache(maxSize, ttlMs)` — the map starts empty. -/
def LRU.empty (V : Type) (maxSize ttlMs : Nat) : LRU V :=
  ⟨maxSize, ttlMs, []⟩

/-- Map removal `this.map.delete(key)`: drop the binding for `key`, keeping order. -/
def mapDelete {V : Type} (k : String) (m : List (String × CacheEntry V)) :
    List (String × CacheEntry V) :=
  m.filter (fun p => p.1 ≠ k)

/-- Map lookup `this.map.get(key)`: first binding for `key` (keys are unique in a JS map). -/
def mapLookup {V : Type} (k : String) (m : List (String × CacheEntry V)) :
    Option (CacheEntry V) :=
  (m.find? (fun p => p.1 = k)).map Prod.snd

/-- Method `LRUCache.get(key)` at machine time `now`; returns the value (or none)
together with the mutated cache.  An entry older than `ttlMs` is deleted and
reported absent; a live entry is promoted to most-recently-used. -/
def LRU.get {V : Type} (c : LRU V) (now : Nat) (k : String) :
    Option V × LRU V :=
  match mapLookup k c.map with
  | none => (none, c)
  | some e =>
    if now - e.ts > c.ttlMs then
      (none, { c with map := mapDelete k c.map })
    else
      (some e.value, { c with map := mapDelete k c.map ++ [(k, e)] })

/-- Method `LRUCache.set(key, value)` at machine time `now`: delete any existing
binding, evict the oldest entry if still at capacity, insert fresh. -/
def LRU.set {V : Type} (c : LRU V) (now : Nat) (k : String) (v : V) : LRU V :=
  let m1 := mapDelete k c.map
  let m2 := if m1.length ≥ c.maxSize then m1.tail else m1
  { c with map := m2 ++ [(k, ⟨v, now⟩)] }

/-- Method `LRUCache.has(key)` = `this.get(key) !== undefined` (so it also mutates). -/
def LRU.has {V : Type} (c : LRU V) (now : Nat) (k : String) : Bool × LRU V :=
  let (r, c') := c.get now k
  (r.isSome, c')

/-- Method `LRUCache.clear()`. -/
def LRU.clear {V : Type} (c : LRU V) : LRU V :=
  { c with map := [] }

/-- The `size` getter: `this.map.size`. -/
def LRU.size {V : Type} (c : LRU V) : Nat :=
  c.map.length

/-- One cache operation together with the machine time at which it runs. -/
inductive CacheOp (V : Type) where
  | set (k : String) (v : V) (now : Nat)
  | get (k : String) (now : Nat)
  | has (k : String) (now : Nat)
  | clear

/-- Apply one operation, discarding the returned value. -/
def applyOp {V : Type} (c : LRU V) : CacheOp V → LRU V
  | .set k v now => c.set now k v
  | .get k now => (c.get now k).2
  | .has k now => (c.has now k).2
  | .clear => c.clear

/-- Run a sequence of operations from a cache state. -/
def runOps {V : Type} (c : LRU V) (ops : List (CacheOp V)) : LRU V :=
  ops.foldl applyOp c

/-! ## cacheKey — `src/cache.js`, function `cacheKey`

`cacheKey(prefix, obj)` computes
`sha256(prefix + ":" + JSON.stringify(obj, Object.keys(obj).sort())).slice(0, 24)`
in lowercase hex.  We embed the JSON values actually passed (numbers,
strings, booleans), ECMAScript `JSON.stringify` with a sorted property
list (with an array replacer, properties are emitted in replacer order),
UTF-8 encoding of the input string (Node's `hash.update` default), and
FIPS 180-4 SHA-256 over bytes as plain `Nat`s reduced `% 2^32`.
-/

/-- A top-level JSON value as passed to `cacheKey` in this repository. -/
inductive JVal where
  | num (n : Int)
  | str (s : String)
  | jbool (b : Bool)
  deriving Repr, DecidableEq

/-- Truncate to a 32-bit word. -/
def w32 (n : Nat) : Nat := n % 4294967296

/-- Right rotation on 32-bit words. -/
def rotr32 (n x : Nat) : Nat := w32 ((x >>> n) ||| (x <<< (32 - n)))

def smallSigma0 (x : Nat) : Nat := (rotr32 7 x) ^^^ (rotr32 18 x) ^^^ (x >>> 3)

def smallSigma1 (x : Nat) : Nat := (rotr32 17 x) ^^^ (rotr32 19 x) ^^^ (x >>> 10)

def bigSigma0 (x : Nat) : Nat := (rotr32 2 x) ^^^ (rotr32 13 x) ^^^ (rotr32 22 x)

def bigSigma1 (x : Nat) : Nat := (rotr32 6 x) ^^^ (rotr32 11 x) ^^^ (rotr32 25 x)

/-- The SHA-256 round constants (FIPS 180-4 §4.2.2). -/
def sha256K : List Nat :=
  [1116352408, 1899447441, 3049323471, 3921009573, 961987163,
   1508970993, 2453635748, 2870763221, 3624381080, 310598401,
   607225278, 1426881987, 1925078388, 2162078206, 2614888103,
   3248222580, 3835390401, 4022224774, 264347078, 604807628,
   770255983, 1249150122, 1555081692, 1996064986, 2554220882,
   2821834349, 2952996808, 3210313671, 3336571891, 3584528711,
   113926993, 338241895, 666307205, 773529912, 1294757372,
   1396182291, 1695183700, 1986661051, 2177026350, 2456956037,
   2730485921, 2820302411, 3259730800, 3345764771, 3516065817,
   3600352804, 4094571909, 275423344, 430227734, 506948616,
   659060556, 883997877, 958139571, 1322822218, 1537002063,
   1747873779, 1955562222, 2024104815, 2227730452, 2361852424,
   2428436474, 2756734187, 3204031479, 3329325298]

/-- The SHA-256 working state: eight 32-bit words. -/
structure Hash8 where
  a : Nat
  b : Nat
  c : Nat
  d : Nat
  e : Nat
  f : Nat
  g : Nat
  h : Nat
  deriving Repr, DecidableEq

/-- The SHA-256 initial hash value (FIPS 180-4 §5.3.3). -/
def sha256H0 : Hash8 :=
  ⟨1779033703, 3144134277, 1013904242, 2773480762,
   1359893119, 2600822924, 528734635, 1541459225⟩

/-- FIPS 180-4 §5.1.1 padding: append `0x80`, zeros to 56 mod 64, then the
bit length as a 64-bit big-endian integer. -/
def sha256Pad (msg : List Nat) : List Nat :=
  let len := msg.length
  let z := (119 - len % 64) % 64
  msg ++ [0x80] ++ List.replicate z 0 ++
    (List.range 8).map (fun i => ((8 * len) >>> (8 * (7 - i))) % 256)

/-- Group bytes into big-endian 32-bit words. -/
def bytesToWords : List Nat → List Nat
  | a :: b :: c :: d :: rest =>
    ((a <<< 24) ||| (b <<< 16) ||| (c <<< 8) ||| d) :: bytesToWords rest
  | _ => []

/-- Split a word list into 16-word blocks (the padded message is always a
whole number of blocks, so the last clause is never reached). -/
def chunks16 : List Nat → List (List Nat)
  | w0 :: w1 :: w2 :: w3 :: w4 :: w5 :: w6 :: w7 ::
    w8 :: w9 :: w10 :: w11 :: w12 :: w13 :: w14 :: w15 :: rest =>
    [w0, w1, w2, w3, w4, w5, w6, w7, w8, w9, w10, w11, w12, w13, w14, w15] ::
      chunks16 rest
  | [] => []
  | leftover => [leftover]

/-- One message-schedule extension step (FIPS 180-4 §6.2.2 part 1):
with `acc` holding `W[0..n-1]`, produce `W[n]`. -/
def scheduleStep (acc : List Nat) : Nat :=
  let n := acc.length
  let g := fun (j : Nat) => acc.getD (n - j) 0
  w32 (smallSigma1 (g 2) + g 7 + smallSigma0 (g 15) + g 16)

/-- Extend a 16-word block to the 64-word schedule. -/
def buildSchedule (w16 : List Nat) : List Nat :=
  (List.range 48).foldl (fun acc _ => acc ++ [scheduleStep acc]) w16

/-- One compression round (FIPS 180-4 §6.2.2 part 3). -/
def compressStep (st : Hash8) (kw : Nat × Nat) : Hash8 :=
  let ch := (st.e &&& st.f) ^^^ ((0xffffffff ^^^ st.e) &&& st.g)
  let maj := (st.a &&& st.b) ^^^ (st.a &&& st.c) ^^^ (st.b &&& st.c)
  let t1 := w32 (st.h + bigSigma1 st.e + ch + kw.1 + kw.2)
  let t2 := w32 (bigSigma0 st.a + maj)
  ⟨w32 (t1 + t2), st.a, st.b, st.c, w32 (st.d + t1), st.e, st.f, st.g⟩

/-- Process one 16-word block, updating the hash value. -/
def processBlock (H : Hash8) (block : List Nat) : Hash8 :=
  let w := buildSchedule block
  let st := (sha256K.zip w).foldl compressStep H
  ⟨w32 (H.a + st.a), w32 (H.b + st.b), w32 (H.c + st.c), w32 (H.d + st.d),
   w32 (H.e + st.e), w32 (H.f + st.f), w32 (H.g + st.g), w32 (H.h + st.h)⟩

/-- Big-endian bytes of a 32-bit word. -/
def wordBytes (wrd : Nat) : List Nat :=
  [(wrd >>> 24) % 256, (wrd >>> 16) % 256, (wrd >>> 8) % 256, wrd % 256]

/-- The 32-byte digest of a final hash value. -/
def digestBytes (H : Hash8) : List Nat :=
  wordBytes H.a ++ wordBytes H.b ++ wordBytes H.c ++ wordBytes H.d ++
  wordBytes H.e ++ wordBytes H.f ++ wordBytes H.g ++ wordBytes H.h

/-- SHA-256 of a byte string (bytes as `Nat < 256`). -/
def sha256 (msg : List Nat) : List Nat :=
  digestBytes ((chunks16 (bytesToWords (sha256Pad msg))).foldl processBlock sha256H0)

/-- UTF-8 encoding of one character. -/
def utf8Char (c : Char) : List Nat :=
  let n := c.toNat
  if n < 0x80 then [n]
  else if n < 0x800 then [0xc0 ||| (n >>> 6), 0x80 ||| (n &&& 0x3f)]
  else if n < 0x10000 then
    [0xe0 ||| (n >>> 12), 0x80 ||| ((n >>> 6) &&& 0x3f), 0x80 ||| (n &&& 0x3f)]
  else
    [0xf0 ||| (n >>> 18), 0x80 ||| ((n >>> 12) &&& 0x3f),
     0x80 ||| ((n >>> 6) &&& 0x3f), 0x80 ||| (n &&& 0x3f)]

/-- UTF-8 bytes of a string (Node `hash.update(str)` uses UTF-8). -/
def utf8Bytes (s : String) : List Nat :=
  s.data.foldr (fun c acc => utf8Char c ++ acc) []

/-- The lowercase hex alphabet used by `digest("hex")`. -/
def hexDigits : List Char :=
  "0123456789abcdef".data

/-- Hex digit for `n % 16`. -/
def hexDigit (n : Nat) : Char := hexDigits.getD (n % 16) '0'

/-- Two hex digits of a byte. -/
def byteHex (b : Nat) : List Char := [hexDigit (b >>> 4), hexDigit b]

/-- Lowercase hex rendering of a byte string. -/
def bytesHex (bs : List Nat) : List Char :=
  bs.foldr (fun b acc => byteHex b ++ acc) []

/-- Returns `true` iff `c` is a lowercase hex digit. -/
def isHexChar (c : Char) : Bool := c ∈ hexDigits

/-- JSON string escaping of one character (ECMAScript `QuoteJSONString`). -/
def jsonEscapeChar (c : Char) : List Char :=
  if c = '"' then ['\\', '"']
  else if c = '\\' then ['\\', '\\']
  else if c = '\n' then ['\\', 'n']
  else if c = '\r' then ['\\', 'r']
  else if c = '\t' then ['\\', 't']
  else if c.toNat = 8 then ['\\', 'b']
  else if c.toNat = 12 then ['\\', 'f']
  else if c.toNat < 32 then '\\' :: 'u' :: '0' :: '0' :: byteHex c.toNat
  else [c]

/-- A JSON-quoted string. -/
def jsonQuote (s : String) : String :=
  String.mk ('"' :: s.data.foldr (fun c acc => jsonEscapeChar c ++ acc) [] ++ ['"'])

/-- Serialisation of one JSON value. -/
def JVal.serialize : JVal → String
  | .num n => toString n
  | .str s => jsonQuote s
  | .jbool b => if b then "true" else "false"

/-- Models `Object.keys(obj).sort()` — JS default sort compares the strings
lexicographically; on the repository's distinct keys this is insertion
sort by `≤`. -/
def sortKeys (l : List String) : List String :=
  l.insertionSort (· ≤ ·)

/-- Property access `obj[k]` on the association-list object. -/
def objLookup (k : String) (obj : List (String × JVal)) : Option JVal :=
  (obj.find? (fun p => p.1 = k)).map Prod.snd

/-- Models `JSON.stringify(obj, Object.keys(obj).sort())`: with an array replacer,
properties are serialised in replacer (sorted) order. -/
def stringifySorted (obj : List (String × JVal)) : String :=
  let ks := sortKeys (obj.map Prod.fst)
  let parts := ks.filterMap
    (fun k => (objLookup k obj).map (fun v => jsonQuote k ++ ":" ++ v.serialize))
  "\x7b" ++ String.intercalate "," parts ++ "\x7d"

/-- Function `cacheKey(prefix, obj)` from `src/cache.js` (`prefix` is a Lean keyword,
so the parameter is named `pfx`). -/
def cacheKey (pfx : String) (obj : List (String × JVal)) : String :=
  String.mk ((bytesHex (sha256 (utf8Bytes (pfx ++ ":" ++ stringifySorted obj)))).take 24)

/-! ## SSRF guard — `src/security.js`

`preflightIsUrlAllowed` runs an if-chain of checks.  The WHATWG URL
parser (`new URL`) and the `ipaddr.js` classifiers are external
dependencies: the parse outcome is passed as an `Option JsUrl`, and
`isIpLiteral`/`isPrivateIp` as boolean-valued parameters.  The DNS
lookup outcome is an `Except`: `.error` models a thrown lookup.
All string-level checks (`isLocalHostname`, `isProbablyPrivateHostname`)
are embedded in full.
-/

inductive PreflightReason where
  | invalid_url
  | unsupported_protocol
  | blocked_localhost
  | blocked_private_ip
  | blocked_private_hostname
  | blocked_private_resolution
  deriving Repr, DecidableEq

inductive PreflightResult where
  | allow
  | deny (reason : PreflightReason)
  deriving Repr, DecidableEq

/-- A parsed WHATWG URL, as far as the guard inspects it. -/
structure JsUrl where
  protocol : String
  hostname : String
  deriving Repr, DecidableEq

/-- ASCII lowercasing of one character (hostnames here are ASCII, so this
matches JS `toLowerCase()`). -/
def asciiLower (c : Char) : Char :=
  if 'A' ≤ c && c ≤ 'Z' then Char.ofNat (c.toNat + 32) else c

/-- Models `String(hostname).toLowerCase()`. -/
def lowerStr (s : String) : String :=
  String.mk (s.data.map asciiLower)

/-- JS `String.prototype.endsWith` (ASCII suffixes). -/
def strEndsWith (s sfx : String) : Bool :=
  sfx.data.isSuffixOf s.data

/-- Split at `'.'` characters, keeping empty components (the behaviour of
splitting a hostname for the RFC-1918 regexes). -/
def splitDotAux : List Char → List Char → List (List Char)
  | [], acc => [acc.reverse]
  | c :: rest, acc =>
    if c = '.' then acc.reverse :: splitDotAux rest []
    else splitDotAux rest (c :: acc)

def splitDot (s : String) : List (List Char) :=
  splitDotAux s.data []

/-- Function `isLocalHostname` from `src/security.js`. -/
def isLocalHostname (hostname : String) : Bool :=
  let h := lowerStr hostname
  h == "localhost" || h == "ip6-localhost" ||
  strEndsWith h ".localhost" || strEndsWith h ".local" || h == ""

/-- Regex `\d+`: one or more ASCII digits. -/
def isDigitStr (s : List Char) : Bool :=
  !s.isEmpty && s.all (fun c => c.isDigit)

/-- Regex `/^10\.\d+\.\d+\.\d+$/.test(h)`. -/
def rfc1918Ten (h : String) : Bool :=
  match splitDot h with
  | [a, b, c, d] => a == ['1', '0'] && isDigitStr b && isDigitStr c && isDigitStr d
  | _ => false

/-- Regex `/^192\.168\.\d+\.\d+$/.test(h)`. -/
def rfc1918_192168 (h : String) : Bool :=
  match splitDot h with
  | [a, b, c, d] =>
    a == ['1', '9', '2'] && b == ['1', '6', '8'] && isDigitStr c && isDigitStr d
  | _ => false

/-- Pattern `(1[6-9]|2\d|3[0-1])`: exactly two characters matching the alternation. -/
def is172SecondOctet (s : List Char) : Bool :=
  match s with
  | ['1', c] => '6' ≤ c && c ≤ '9'
  | ['2', c] => c.isDigit
  | ['3', c] => c == '0' || c == '1'
  | _ => false

/-- Regex `/^172\.(1[6-9]|2\d|3[0-1])\.\d+\.\d+$/.test(h)`. -/
def rfc1918_172 (h : String) : Bool :=
  match splitDot h with
  | [a, b, c, d] =>
    a == ['1', '7', '2'] && is172SecondOctet b && isDigitStr c && isDigitStr d
  | _ => false

/-- Function `isProbablyPrivateHostname` from `src/security.js`. -/
def isProbablyPrivateHostname (hostname : String) : Bool :=
  let h := lowerStr hostname
  isLocalHostname h || h == "0.0.0.0" || h == "::" ||
  strEndsWith h ".internal" || strEndsWith h ".intranet" ||
  strEndsWith h ".home" || strEndsWith h ".lan" ||
  strEndsWith h ".corp" || strEndsWith h ".test" ||
  strEndsWith h ".example" || strEndsWith h ".invalid" ||
  rfc1918Ten h || rfc1918_192168 h || rfc1918_172 h

/-- Function `hostnameResolvesToPrivate`: any resolved address classified private,
and `true` ("fail-closed on DNS rebinding") when the lookup throws. -/
def hostnameResolvesToPrivate (ipPrivate : String → Bool)
    (dns : Except Unit (List String)) : Bool :=
  match dns with
  | .ok records => records.any ipPrivate
  | .error _ => true

/-- Function `isHttpProtocol`. -/
def isHttpProtocol (u : JsUrl) : Bool :=
  u.protocol == "http:" || u.protocol == "https:"

/-- Function `preflightIsUrlAllowed` from `src/security.js`, as the if-chain
written in the source. -/
def preflightIsUrlAllowed (ipLiteral ipPrivate : String → Bool)
    (parsed : Option JsUrl) (dns : Except Unit (List String)) : PreflightResult :=
  match parsed with
  | none => .deny .invalid_url
  | some u =>
    if !isHttpProtocol u then .deny .unsupported_protocol
    else if isLocalHostname u.hostname then .deny .blocked_localhost
    else if ipLiteral u.hostname && ipPrivate u.hostname then .deny .blocked_private_ip
    else if isProbablyPrivateHostname u.hostname then .deny .blocked_private_hostname
    else if hostnameResolvesToPrivate ipPrivate dns then .deny .blocked_private_resolution
    else .allow

/-- First-match-wins over an ordered check list (the spec's reading). -/
def firstMatch : List (Bool × PreflightReason) → PreflightResult
  | [] => .allow
  | (b, r) :: rest => if b then .deny r else firstMatch rest

/-- Modelled from the spec: the checks in the order the spec lists them,
with the first matching reason returned. -/
def preflightSpecOrder (ipLiteral ipPrivate : String → Bool)
    (parsed : Option JsUrl) (dns : Except Unit (List String)) : PreflightResult :=
  match parsed with
  | none => .deny .invalid_url
  | some u =>
    firstMatch
      [(!isHttpProtocol u, .unsupported_protocol),
       (isLocalHostname u.hostname, .blocked_localhost),
       (ipLiteral u.hostname && ipPrivate u.hostname, .blocked_private_ip),
       (isProbablyPrivateHostname u.hostname, .blocked_private_hostname),
       (hostnameResolvesToPrivate ipPrivate dns, .blocked_private_resolution)]

/-! ## Configuration — `src/config.js`, and the `/v2/scrape` handler

`maxTimeoutMs` is `Math.min(Number(process.env.MAX_TIMEOUT_MS) || 30000, 60000)`.
`envVal = none` models an unset or non-numeric variable (`Number` yields
`NaN`, which is falsy); `some 0` is falsy as well, so both fall back to
30000 before the 60000 cap.
-/

def maxTimeoutMsOf (envVal : Option Int) : Int :=
  min (match envVal with
       | some v => if v = 0 then 30000 else v
       | none => 30000) 60000

/-- The `/v2/scrape` request-body fields relevant to the handler
(`src/extract.js`, `app.post("/v2/scrape", ...)`). -/
structure ScrapeBody where
  url : Option String
  formats : Option (List String)
  onlyMainContent : Option Bool
  timeoutMs : Option Int
  deriving Repr, DecidableEq

/-- The options object built by the handler:
`{ timeoutMs: cfg.maxTimeoutMs, formats: body.formats || ["markdown"],
onlyMainContent: body.onlyMainContent !== false }`. -/
structure ScrapeOpts where
  timeoutMs : Int
  formats : List String
  onlyMainContent : Bool
  deriving Repr, DecidableEq

def buildScrapeOpts (body : ScrapeBody) (maxTimeoutMs : Int) : ScrapeOpts :=
  { timeoutMs := maxTimeoutMs
    formats := body.formats.getD ["markdown"]
    onlyMainContent := body.onlyMainContent != some false }

/-! ## `urlToMarkdown` — `extract.js` (two-tier fetch)

The effectful collaborators are passed as oracles: `fast` is the
`tryFastFetch` outcome (`null` on transport failure / non-HTML /
body < 2000), `browser` the Playwright navigation outcome (`none` models
a thrown `page.goto`), `isPdf` the `application/pdf` content-type test,
`readDefault`/`readRelaxed` the outcomes of `new Readability(dom).parse()`
with default and relaxed (`charThreshold: 100, nbTopCandidates: 15`)
options as a function of the parsed HTML, and `cleanedOf` the composite
of the three pre-strip regex replaces (style blocks, stylesheet links,
inline style attributes). -/

/-- The `tryFastFetch` success value `{html, finalUrl, statusCode}`. -/
structure FastResult where
  html : String
  finalUrl : String
  statusCode : Nat
  deriving Repr, DecidableEq

/-- A non-null `Readability.parse()` result, as far as the flow uses it. -/
structure Article where
  content : String
  deriving Repr, DecidableEq

/-- The captured result of a successful browser navigation. -/
structure BrowserResult where
  html : String
  finalUrl : String
  deriving Repr, DecidableEq

/-- What a `urlToMarkdown` run did: whether the browser (stealth context)
was acquired, which HTML string was handed to sanitise/convert, and the
base URL used. -/
structure ScrapeFlow where
  browserAcquired : Bool
  converted : String
  usedUrl : String
  deriving Repr, DecidableEq

inductive ScrapeFlowResult where
  | ok (flow : ScrapeFlow)
  | navigationFailed
  | unsupportedContentType
  deriving Repr, DecidableEq

/-- The Playwright fallback path of `urlToMarkdown` (`extract.js`,
`createStealthContext` onwards). -/
def browserPathFlow (cleanedOf : String → String)
    (readDefault readRelaxed : String → Option Article)
    (browser : Option BrowserResult) (isPdf : Bool)
    (onlyMainContent : Bool) : ScrapeFlowResult :=
  match browser with
  | none => .navigationFailed
  | some b =>
    if isPdf then .unsupportedContentType
    else
      let cleaned := cleanedOf b.html
      let article := (readDefault cleaned).orElse (fun _ => readRelaxed cleaned)
      match article with
      | some art =>
        .ok ⟨true, if onlyMainContent then art.content else cleaned, b.finalUrl⟩
      | none => .ok ⟨true, cleaned, b.finalUrl⟩

/-- The control flow of `urlToMarkdown`: fast path first; the fast path
returns only when Readability found an article, otherwise the function
falls through to the Playwright path. -/
def urlToMarkdownFlow (cleanedOf : String → String)
    (readDefault readRelaxed : String → Option Article)
    (fast : Option FastResult) (browser : Option BrowserResult)
    (isPdf : Bool) (onlyMainContent : Bool) : ScrapeFlowResult :=
  match fast with
  | some f =>
    let cleaned := cleanedOf f.html
    let article := (readDefault cleaned).orElse (fun _ => readRelaxed cleaned)
    match article with
    | some art =>
      .ok ⟨false, if onlyMainContent then art.content else cleaned, f.finalUrl⟩
    | none =>
      browserPathFlow cleanedOf readDefault readRelaxed browser isPdf onlyMainContent
  | none =>
    browserPathFlow cleanedOf readDefault readRelaxed browser isPdf onlyMainContent

/-! ## sanitizeForLLM — `extract.js` (v2 sanitiser, `A` whitelisted)

The DOM fragment assigned to `document.body.innerHTML` is modelled as a
forest; `tag` is the uppercase `tagName` jsdom reports for HTML elements.
The pipeline mirrors the source order: resolve `<a href>` against the
base URL, remove boilerplate/media elements (the big `querySelectorAll`),
replace `<figure>` by its first `<figcaption>` wrapped in `<p>`, unwrap
every element outside the whitelist (children promoted in place), and
strip every attribute except `href` on `<A>`.  The WHATWG URL resolver
(`new URL(href, baseUrl).href`) is a parameter: `some r` models success,
`none` a throw (original attribute kept).
-/

/-- A DOM forest: a sibling list of text and element nodes.  The forest
shape (rather than `List DomNode`) keeps every recursion structural. -/
inductive DomForest where
  | nil
  | textCons (s : String) (rest : DomForest)
  | elemCons (tag : String) (attrs : List (String × String))
      (children : DomForest) (rest : DomForest)
  deriving Repr, DecidableEq

/-- Models `el.getAttribute(name)` (attribute names are unique on an element). -/
def getAttr (nm : String) (attrs : List (String × String)) : Option String :=
  (attrs.find? (fun p => p.1 = nm)).map Prod.snd

/-- Models `el.setAttribute(name, v)` when the attribute is already present. -/
def setAttr (nm v : String) (attrs : List (String × String)) :
    List (String × String) :=
  attrs.map (fun p => if p.1 = nm then (nm, v) else p)

/-- Models `node.textContent` of a forest. -/
def textContent : DomForest → String
  | .nil => ""
  | .textCons s rest => s ++ textContent rest
  | .elemCons _ _ c rest => textContent c ++ textContent rest

/-- Forest concatenation (splicing promoted children in place). -/
def appendF : DomForest → DomForest → DomForest
  | .nil, g => g
  | .textCons s r, g => .textCons s (appendF r g)
  | .elemCons t a c r, g => .elemCons t a c (appendF r g)

/-- The attribute effect of the `href`-resolution loop on one element:
`if (href) try { setAttribute(new URL(href, base).href) } catch { keep }`. -/
def resolveAttrs (resolve : String → Option String) (t : String)
    (a : List (String × String)) : List (String × String) :=
  if t = "A" then
    match getAttr "href" a with
    | some h =>
      if h = "" then a
      else setAttr "href" (match resolve h with | some r => r | none => h) a
    | none => a
  else a

/-- The `href` resolution loop over all `<a>` elements. -/
def resolveHrefs (resolve : String → Option String) : DomForest → DomForest
  | .nil => .nil
  | .textCons s rest => .textCons s (resolveHrefs resolve rest)
  | .elemCons t a c rest =>
    .elemCons t (resolveAttrs resolve t a)
      (resolveHrefs resolve c) (resolveHrefs resolve rest)

/-- Element selectors of the removal `querySelectorAll`. -/
def removalTags : List String :=
  ["IMG", "PICTURE", "SOURCE", "VIDEO", "AUDIO", "IFRAME", "EMBED", "OBJECT",
   "CANVAS", "SVG", "SCRIPT", "STYLE", "NOSCRIPT", "FORM", "BUTTON", "INPUT",
   "SELECT", "TEXTAREA", "LINK", "NAV", "HEADER", "FOOTER", "ASIDE"]

/-- Whether `sub` is a prefix of `l`. -/
def charsPrefixOf : List Char → List Char → Bool
  | c :: cs, d :: ds => if c = d then charsPrefixOf cs ds else false
  | [], _ => true
  | _, [] => false

/-- Whether `sub` occurs as a contiguous run inside `l`. -/
def charsInfixOf : List Char → List Char → Bool
  | sub, [] => charsPrefixOf sub []
  | sub, b :: bs => charsPrefixOf sub (b :: bs) || charsInfixOf sub bs

/-- Selector `[attr*='sub']`: the attribute value contains the substring. -/
def attrContains (nm sub : String) (attrs : List (String × String)) : Bool :=
  match getAttr nm attrs with
  | some v => charsInfixOf sub.data v.data
  | none => false

/-- Whether an element matches the removal selector list. -/
def removalMatch (tag : String) (attrs : List (String × String)) : Bool :=
  removalTags.contains tag ||
  (getAttr "aria-live" attrs).isSome ||
  getAttr "role" attrs == some "banner" ||
  getAttr "role" attrs == some "navigation" ||
  getAttr "role" attrs == some "contentinfo" ||
  attrContains "class" "sidebar" attrs ||
  attrContains "class" "ad-" attrs ||
  attrContains "class" "advertisement" attrs ||
  attrContains "id" "ad-" attrs ||
  attrContains "class" "social" attrs ||
  attrContains "class" "share" attrs ||
  attrContains "class" "related" attrs

/-- The `.forEach((el) => el.remove())` loop over the removal selector matches:
matching elements disappear with their whole subtree. -/
def removeStep : DomForest → DomForest
  | .nil => .nil
  | .textCons s rest => .textCons s (removeStep rest)
  | .elemCons t a c rest =>
    if removalMatch t a then removeStep rest
    else .elemCons t a (removeStep c) (removeStep rest)

/-- Models `fig.querySelector("figcaption")`: children of the first figcaption
descendant in document order. -/
def findFigcaption : DomForest → Option DomForest
  | .nil => none
  | .textCons _ rest => findFigcaption rest
  | .elemCons t _ c rest =>
    if t = "FIGCAPTION" then some c
    else
      match findFigcaption c with
      | some r => some r
      | none => findFigcaption rest

/-- The `<figure>` loop: replace by `<p>` holding the figcaption content,
else remove.  The copied figcaption content is fresh nodes (built via
`innerHTML`), so it is not figure-processed again — matching the
snapshot semantics of the source loop. -/
def figureStep : DomForest → DomForest
  | .nil => .nil
  | .textCons s rest => .textCons s (figureStep rest)
  | .elemCons t a c rest =>
    if t = "FIGURE" then
      match findFigcaption c with
      | some capChildren => .elemCons "P" [] capChildren (figureStep rest)
      | none => figureStep rest
    else .elemCons t a (figureStep c) (figureStep rest)

/-- The whitelist of structural tags kept by the sanitiser. -/
def allowedTags : List String :=
  ["H1", "H2", "H3", "H4", "H5", "H6", "P", "UL", "OL", "LI", "A",
   "PRE", "CODE", "BLOCKQUOTE", "TABLE", "THEAD", "TBODY", "TFOOT",
   "TR", "TH", "TD", "EM", "I", "STRONG", "B", "HR", "BR", "DL", "DT", "DD",
   "SUP", "SUB", "ABBR", "MARK", "DEL", "INS", "DETAILS", "SUMMARY"]

/-- The whitelist loop: any element outside `allowedTags` is unwrapped,
its children promoted in place. -/
def unwrapStep : DomForest → DomForest
  | .nil => .nil
  | .textCons s rest => .textCons s (unwrapStep rest)
  | .elemCons t a c rest =>
    let c' := unwrapStep c
    if allowedTags.contains t then .elemCons t a c' (unwrapStep rest)
    else appendF c' (unwrapStep rest)

/-- The attribute scrub on one element: `keep = tagName === "A" ?
getAttribute("href") : null`; all attributes removed; `keep` re-set only
when truthy (so an empty `href` is dropped). -/
def scrubAttrs (t : String) (attrs : List (String × String)) :
    List (String × String) :=
  if t = "A" then
    match getAttr "href" attrs with
    | some h => if h = "" then [] else [("href", h)]
    | none => []
  else []

/-- The attribute-scrub loop over all elements. -/
def scrubStep : DomForest → DomForest
  | .nil => .nil
  | .textCons s rest => .textCons s (scrubStep rest)
  | .elemCons t a c rest => .elemCons t (scrubAttrs t a) (scrubStep c) (scrubStep rest)

/-- Function `sanitizeForLLM(html, baseUrl)` on the parsed body content. -/
def sanitizeForLLM (resolve : String → Option String) (body : DomForest) :
    DomForest :=
  scrubStep (unwrapStep (figureStep (removeStep (resolveHrefs resolve body))))

/-- All elements of a forest (recursively) satisfy `p`. -/
def forestElemsAll (p : String → List (String × String) → Bool) :
    DomForest → Bool
  | .nil => true
  | .textCons _ rest => forestElemsAll p rest
  | .elemCons t a c rest => p t a && forestElemsAll p c && forestElemsAll p rest

/-- An element carries no attribute except `href` on `<A>`. -/
def attrsOnlyHref (t : String) (a : List (String × String)) : Bool :=
  a.all (fun p => p.1 == "href" && t == "A")

/-- No element of the forest matches the removal selectors or is a
`<figure>`. -/
def cleanForRemoval : DomForest → Bool :=
  forestElemsAll (fun t a => !removalMatch t a && t != "FIGURE")

/-! ## extractOne — `src/extract.js` (server section)

`extractOne` preflights the URL, consults the cache, runs the limited
work and stores only successful results.  `pre` is the preflight outcome
for the URL, `key` the computed cache key, and `work` the outcome of
`workLimiter.run(() => urlToMarkdown(url, opts))` (`none` models a
throw). -/

inductive ExtractOutcome (V : Type) where
  | ok (v : V)
  | error (kind : String)
  deriving Repr, DecidableEq

def extractOne {V : Type} (cache : LRU V) (now : Nat)
    (pre : PreflightResult) (key : String) (work : Option V) :
    ExtractOutcome V × LRU V :=
  match pre with
  | .deny _ => (.error "blocked_url", cache)
  | .allow =>
    match cache.get now key with
    | (some v, c1) => (.ok v, c1)
    | (none, c1) =>
      match work with
      | some data => (.ok data, c1.set now key data)
      | none => (.error "extraction_failed", c1)

/-! ## Concurrency limiter — `src/limit.js`, class `Limit`

`run(fn)` pushes a task and calls `_next()`; `_next()` starts the queue
head only when `active < max`; a task increments `active` on start and,
in `finally`, decrements it and calls `_next()` again.  JS is
single-threaded, so each of these compound updates is atomic: the
limiter is a state machine driven by `run` events and `finish` events
(a running task settling, successfully or not).  Tasks are identified by
their submission index; `started` records start order, `finished` the
settled tasks with their outcome. -/

structure LimitState where
  max : Nat
  nextId : Nat
  activeIds : List Nat
  queue : List Nat
  started : List Nat
  finished : List (Nat × Bool)
  deriving Repr, DecidableEq

/-- Constructor `new Limit(max)`: `this.max = Math.max(1, Number(max) || 1)`.
`none` models a non-numeric argument (`Number` gives `NaN`, falsy) and
`some 0` is falsy too; both fall back to 1 before the clamp. -/
def mkLimit (m : Option Int) : LimitState :=
  let n : Int :=
    match m with
    | some v => if v = 0 then 1 else v
    | none => 1
  ⟨(max 1 n).toNat, 0, [], [], [], []⟩

/-- Method `_next()`: start the queue head if a slot is free. -/
def tryNext (s : LimitState) : LimitState :=
  if s.activeIds.length ≥ s.max then s
  else
    match s.queue with
    | [] => s
    | t :: q =>
      { s with activeIds := s.activeIds ++ [t], queue := q,
               started := s.started ++ [t] }

inductive LimitEvent where
  | run
  | finish (i : Nat) (ok : Bool)
  deriving Repr, DecidableEq

/-- Method `run(fn)` enqueues the next task id and calls `_next()`; a finishing
task removes itself from the active set, records its outcome, and calls
`_next()`. -/
def applyEvent (s : LimitState) : LimitEvent → LimitState
  | .run =>
    tryNext { s with queue := s.queue ++ [s.nextId], nextId := s.nextId + 1 }
  | .finish i ok =>
    tryNext { s with activeIds := s.activeIds.erase i,
                     finished := s.finished ++ [(i, ok)] }

/-- Only a currently running task can finish. -/
def validEvent (s : LimitState) : LimitEvent → Bool
  | .run => true
  | .finish i _ => s.activeIds.contains i

def runTrace (s : LimitState) (evs : List LimitEvent) : LimitState :=
  evs.foldl applyEvent s

def validTrace : LimitState → List LimitEvent → Bool
  | _, [] => true
  | s, e :: rest => validEvent s e && validTrace (applyEvent s e) rest

/-- The limiter invariant: the active count is bounded by `max`; the
started tasks followed by the queue are exactly the submitted ids in
submission order; the queue is only nonempty at capacity; and
active + finished = started. -/
structure LimitInv (s : LimitState) : Prop where
  hact : s.activeIds.length ≤ s.max
  horder : s.started ++ s.queue = List.range s.nextId
  hqueue : s.queue = [] ∨ s.activeIds.length = s.max
  hcount : s.activeIds.length + s.finished.length = s.started.length

/-- Finishing every running/queued task in turn. -/
def drainStep (s : LimitState) : LimitState :=
  match s.activeIds with
  | [] => s
  | i :: _ => applyEvent s (.finish i true)

def drain (s : LimitState) : Nat → LimitState
  | 0 => s
  | n + 1 => drain (drainStep s) n

/-- The state of the limiter after a valid event trace from `new Limit(m)`. -/
def limiterRun (m : Option Int) (evs : List LimitEvent) : LimitState :=
  runTrace (mkLimit m) evs

lemma mapDelete_length_le {V : Type} (k : String) (m : List (String × CacheEntry V)) :
    (mapDelete k m).length ≤ m.length :=
  List.length_filter_le _ _

lemma mapDelete_cons {V : Type} (k : String) (p : String × CacheEntry V)
    (t : List (String × CacheEntry V)) :
    mapDelete k (p :: t) = if p.1 = k then mapDelete k t else p :: mapDelete k t := by
  by_cases h : p.1 = k <;> simp [mapDelete, List.filter_cons, h]

lemma mapLookup_cons_ne {V : Type} {k : String} {p : String × CacheEntry V}
    {t : List (String × CacheEntry V)} (hpk : ¬p.1 = k) :
    mapLookup k (p :: t) = mapLookup k t := by
  simp [mapLookup, List.find?_cons, hpk]

lemma mapDelete_length_lt {V : Type} {k : String} {m : List (String × CacheEntry V)}
    {e : CacheEntry V} (h : mapLookup k m = some e) :
    (mapDelete k m).length < m.length := by
  induction m with
  | nil => simp [mapLookup] at h
  | cons p t ih =>
    rw [mapDelete_cons]
    by_cases hpk : p.1 = k
    · rw [if_pos hpk]
      exact Nat.lt_succ_of_le (mapDelete_length_le k t)
    · rw [if_neg hpk]
      have ht : mapLookup k t = some e := by rw [← mapLookup_cons_ne hpk]; exact h
      simpa [List.length_cons] using Nat.succ_lt_succ (ih ht)

lemma mapDelete_of_lookup_none {V : Type} {k : String}
    {m : List (String × CacheEntry V)} (hl : mapLookup k m = none) :
    mapDelete k m = m := by
  have hall : ∀ a b, (a, b) ∈ m → ¬a = k := by simpa [mapLookup] using hl
  apply List.filter_eq_self.mpr
  intro p hp
  simpa using hall p.1 p.2 hp

/-- Helper: `applyOp` never changes the configured capacity. -/
lemma applyOp_maxSize {V : Type} (c : LRU V) (op : CacheOp V) :
    (applyOp c op).maxSize = c.maxSize := by
  cases op with
  | set k v now => simp [applyOp, LRU.set]
  | get k now =>
    simp only [applyOp, LRU.get]
    rcases h : mapLookup k c.map with _ | e
    · simp
    · by_cases hexp : now - e.ts > c.ttlMs <;> simp [hexp]
  | has k now =>
    simp only [applyOp, LRU.has, LRU.get]
    rcases h : mapLookup k c.map with _ | e
    · simp
    · by_cases hexp : now - e.ts > c.ttlMs <;> simp [hexp]
  | clear => simp [applyOp, LRU.clear]

/-- One step preserves the size bound, provided the capacity is at least 1. -/
lemma applyOp_size_le {V : Type} (c : LRU V) (op : CacheOp V)
    (hmax : 1 ≤ c.maxSize) (h : c.size ≤ c.maxSize) :
    (applyOp c op).size ≤ (applyOp c op).maxSize := by
  rw [applyOp_maxSize]
  cases op with
  | set k v now =>
    simp only [applyOp, LRU.set, LRU.size] at *
    have h1 : (mapDelete k c.map).length ≤ c.map.length := mapDelete_length_le k c.map
    by_cases hcap : (mapDelete k c.map).length ≥ c.maxSize
    · simp [hcap, List.length_tail]
      omega
    · simp [hcap]
      omega
  | get k now =>
    simp only [applyOp, LRU.get, LRU.size] at *
    rcases hl : mapLookup k c.map with _ | e
    · simpa using h
    · have hlt := mapDelete_length_lt hl
      by_cases hexp : now - e.ts > c.ttlMs <;> simp [hexp] <;> omega
  | has k now =>
    simp only [applyOp, LRU.has, LRU.get, LRU.size] at *
    rcases hl : mapLookup k c.map with _ | e
    · simpa using h
    · have hlt := mapDelete_length_lt hl
      by_cases hexp : now - e.ts > c.ttlMs <;> simp [hexp] <;> omega
  | clear => simp [applyOp, LRU.clear, LRU.size]

lemma runOps_size_le {V : Type} (c : LRU V) (ops : List (CacheOp V))
    (hmax : 1 ≤ c.maxSize) (h : c.size ≤ c.maxSize) :
    (runOps c ops).size ≤ (runOps c ops).maxSize := by
  induction ops generalizing c with
  | nil => simpa [runOps]
  | cons op rest ih =>
    have h1 := applyOp_size_le c op hmax h
    have h2 := applyOp_maxSize c op
    exact ih (applyOp c op) (by omega) (by omega)

lemma runOps_maxSize {V : Type} (c : LRU V) (ops : List (CacheOp V)) :
    (runOps c ops).maxSize = c.maxSize := by
  induction ops generalizing c with
  | nil => rfl
  | cons op rest ih => simpa [runOps, applyOp_maxSize] using ih (applyOp c op)

/-- C4 — For the result cache with capacity `maxSize ≥ 1` and TTL `ttlMs`,
after any sequence of `set`/`get`/`has`/`clear` operations starting from the
freshly constructed cache, `size` never exceeds `maxSize`; and whenever more
than `ttlMs` has elapsed since an entry's stored timestamp, `get` and `has`
on that key report it absent. -/
theorem C4_cache_bounds {V : Type} (maxSize ttlMs : Nat) (hmax : 1 ≤ maxSize)
    (ops : List (CacheOp V)) :
    (runOps (LRU.empty V maxSize ttlMs) ops).size ≤ maxSize ∧
    (∀ (c : LRU V) (k : String) (e : CacheEntry V) (now : Nat),
      mapLookup k c.map = some e → now > e.ts + c.ttlMs →
      (c.get now k).1 = none ∧ (c.has now k).1 = false) := by
  constructor
  · have h := runOps_size_le (LRU.empty V maxSize ttlMs) ops hmax (by simp [LRU.empty, LRU.size])
    have h2 : (runOps (LRU.empty V maxSize ttlMs) ops).maxSize = maxSize :=
      runOps_maxSize (LRU.empty V maxSize ttlMs) ops
    omega
  · intro c k e now hl hexp
    have hgt : now - e.ts > c.ttlMs := by omega
    constructor
    · simp [LRU.get, hl, hgt]
    · simp [LRU.has, LRU.get, hl, hgt]

/-- Closed witness for `C4_cache_bounds` at concrete inputs. -/
theorem C4_cache_bounds_witness :
    (runOps (LRU.empty Nat 2 100)
      [CacheOp.set "a" 1 0, CacheOp.set "b" 2 1, CacheOp.set "c" 3 2]).size ≤ 2 ∧
    (((LRU.mk 2 100 [("x", ⟨7, 0⟩)] : LRU Nat).get 101 "x").1 = none ∧
     ((LRU.mk 2 100 [("x", ⟨7, 0⟩)] : LRU Nat).has 101 "x").1 = false) := by
  refine ⟨(C4_cache_bounds 2 100 (by decide) _).1, ?_⟩
  exact (C4_cache_bounds 2 100 (by decide) ([] : List (CacheOp Nat))).2
    (LRU.mk 2 100 [("x", ⟨7, 0⟩)]) "x" ⟨7, 0⟩ 101 (by decide) (by decide)

/-- C5 — LRU behaviour of `src/cache.js`: with `maxSize = 2`,
`set a; set b; set c` evicts `a` and keeps `b`, `c`; interposing `get a`
before `set c` promotes `a`, so `b` is evicted instead; and in general a
`set` of an absent key at capacity drops exactly the oldest (head) entry. -/
theorem C5_lru_eviction_promotion :
    (∀ {V : Type} (c : LRU V) (k : String) (v : V) (now : Nat),
      mapLookup k c.map = none → c.size ≥ c.maxSize →
      (c.set now k v).map = c.map.tail ++ [(k, ⟨v, now⟩)]) ∧
    (let c3 := (((LRU.empty Nat 2 1000).set 0 "a" 1).set 1 "b" 2).set 2 "c" 3
     (c3.get 3 "a").1 = none ∧ (c3.get 3 "b").1 = some 2 ∧ (c3.get 3 "c").1 = some 3) ∧
    (let d3 := (((((LRU.empty Nat 2 1000).set 0 "a" 1).set 1 "b" 2).get 2 "a").2).set 3 "c" 3
     (d3.get 4 "a").1 = some 1 ∧ (d3.get 4 "b").1 = none ∧ (d3.get 4 "c").1 = some 3) := by
  refine ⟨?_, by decide, by decide⟩
  intro V c k v now hl hcap
  have hdel : mapDelete k c.map = c.map := mapDelete_of_lookup_none hl
  simp only [LRU.set, hdel]
  simp only [LRU.size] at hcap
  simp [hcap]

/-- Closed witness for `C5_lru_eviction_promotion`: at capacity, setting a
fresh key drops exactly the oldest entry. -/
theorem C5_lru_eviction_promotion_witness :
    ((LRU.mk 2 1000 [("a", ⟨1, 0⟩), ("b", ⟨2, 1⟩)] : LRU Nat).set 2 "c" 3).map =
      [("b", ⟨2, 1⟩), ("c", ⟨3, 2⟩)] :=
  C5_lru_eviction_promotion.1 (LRU.mk 2 1000 [("a", ⟨1, 0⟩), ("b", ⟨2, 1⟩)])
    "c" 3 2 (by decide) (by decide)

/-- With pairwise-distinct keys, deleting a present key removes exactly one
binding. -/
lemma mapDelete_length_nodup {V : Type} {k : String}
    {m : List (String × CacheEntry V)} {e : CacheEntry V}
    (hnd : (m.map Prod.fst).Nodup) (h : mapLookup k m = some e) :
    (mapDelete k m).length = m.length - 1 := by
  induction m with
  | nil => simp [mapLookup] at h
  | cons p t ih =>
    simp only [List.map_cons, List.nodup_cons] at hnd
    rw [mapDelete_cons]
    by_cases hpk : p.1 = k
    · rw [if_pos hpk]
      have hdel : mapDelete k t = t := by
        apply List.filter_eq_self.mpr
        intro q hq
        have hq1 : q.1 ≠ k := by
          intro hqk
          exact hnd.1 (by rw [hpk, ← hqk]; exact List.mem_map_of_mem Prod.fst hq)
        simpa using hq1
      simp [hdel]
    · rw [if_neg hpk]
      have ht : mapLookup k t = some e := by rw [← mapLookup_cons_ne hpk]; exact h
      have htlen : 1 ≤ t.length := by
        cases t with
        | nil => simp [mapLookup] at ht
        | cons q r => simp
      have := ih hnd.2 ht
      simp only [List.length_cons]
      omega

/-- C10 — An expired entry still counts toward `size` until touched:
if the map holds an entry for `k` whose timestamp is more than `ttlMs` in
the past, `size` still counts it (so `size ≥ 1`), and a single `get k`
reports it absent while removing it, decreasing `size` by one. -/
theorem C10_expired_counts_until_touched {V : Type} (c : LRU V) (k : String)
    (e : CacheEntry V) (now : Nat)
    (hnd : (c.map.map Prod.fst).Nodup)
    (hl : mapLookup k c.map = some e) (hexp : now > e.ts + c.ttlMs) :
    1 ≤ c.size ∧ (c.get now k).1 = none ∧ (c.get now k).2.size = c.size - 1 := by
  have hgt : now - e.ts > c.ttlMs := by omega
  have hlen := mapDelete_length_nodup hnd hl
  refine ⟨?_, ?_, ?_⟩
  · cases hm : c.map with
    | nil => rw [hm] at hl; simp [mapLookup] at hl
    | cons p t => simp [LRU.size, hm]
  · simp [LRU.get, hl, hgt]
  · simp [LRU.get, hl, hgt, LRU.size, hlen]

/-- Closed witness for `C10_expired_counts_until_touched`. -/
theorem C10_expired_counts_until_touched_witness :
    1 ≤ (LRU.mk 10 100 [("k", ⟨5, 0⟩)] : LRU Nat).size ∧
    ((LRU.mk 10 100 [("k", ⟨5, 0⟩)] : LRU Nat).get 150 "k").1 = none ∧
    ((LRU.mk 10 100 [("k", ⟨5, 0⟩)] : LRU Nat).get 150 "k").2.size =
      (LRU.mk 10 100 [("k", ⟨5, 0⟩)] : LRU Nat).size - 1 :=
  C10_expired_counts_until_touched (LRU.mk 10 100 [("k", ⟨5, 0⟩)]) "k" ⟨5, 0⟩ 150
    (by decide) (by decide) (by decide)

lemma getD_mem {l : List Char} {i : Nat} {d : Char} (hd : d ∈ l) : l.getD i d ∈ l := by
  rcases h : l[i]? with _ | c
  · simp [List.getD, h, hd]
  · have hc : c ∈ l := by
      rw [← List.get?_eq_getElem?] at h
      exact List.get?_mem h
    simp [List.getD, h, hc]

lemma hexDigit_mem (n : Nat) : hexDigit n ∈ hexDigits :=
  getD_mem (by decide)

lemma bytesHex_cons (b : Nat) (t : List Nat) :
    bytesHex (b :: t) = byteHex b ++ bytesHex t := rfl

lemma bytesHex_length (bs : List Nat) : (bytesHex bs).length = 2 * bs.length := by
  induction bs with
  | nil => rfl
  | cons b t ih => simp [bytesHex_cons, byteHex, ih]; omega

lemma bytesHex_all_hex (bs : List Nat) : ∀ c ∈ bytesHex bs, isHexChar c := by
  induction bs with
  | nil => simp [bytesHex]
  | cons b t ih =>
    intro c hc
    rw [bytesHex_cons] at hc
    rcases List.mem_append.mp hc with h | h
    · have : c = hexDigit (b >>> 4) ∨ c = hexDigit b := by simpa [byteHex] using h
      rcases this with rfl | rfl <;> simp [isHexChar, hexDigit_mem]
    · exact ih c h

lemma digestBytes_length (H : Hash8) : (digestBytes H).length = 32 := by
  simp [digestBytes, wordBytes]

lemma sha256_length (msg : List Nat) : (sha256 msg).length = 32 :=
  digestBytes_length _

lemma objLookup_cons {k : String} {p : String × JVal} {t : List (String × JVal)} :
    objLookup k (p :: t) = if p.1 = k then some p.2 else objLookup k t := by
  by_cases h : p.1 = k <;> simp [objLookup, List.find?_cons, h]

/-- Property lookup is invariant under permutation when keys are unique. -/
lemma objLookup_perm {o1 o2 : List (String × JVal)} (h : o1.Perm o2)
    (hnd : (o1.map Prod.fst).Nodup) (k : String) :
    objLookup k o1 = objLookup k o2 := by
  induction h with
  | nil => rfl
  | cons x h ih =>
    simp only [List.map_cons, List.nodup_cons] at hnd
    rw [objLookup_cons, objLookup_cons, ih hnd.2]
  | swap x y l =>
    simp only [List.map_cons, List.nodup_cons, List.mem_cons] at hnd
    have hxy : y.1 ≠ x.1 := fun hEq => hnd.1 (Or.inl hEq)
    rw [objLookup_cons, objLookup_cons, objLookup_cons, objLookup_cons]
    by_cases hx : x.1 = k <;> by_cases hy : y.1 = k <;> simp [hx, hy]
    exact absurd (hy.trans hx.symm) hxy
  | trans h1 h2 ih1 ih2 =>
    have hnd2 := (h1.map Prod.fst).nodup_iff.mp hnd
    rw [ih1 hnd, ih2 hnd2]

lemma sortKeys_perm_eq {l1 l2 : List String} (h : l1.Perm l2) :
    sortKeys l1 = sortKeys l2 :=
  List.eq_of_perm_of_sorted
    ((List.perm_insertionSort (· ≤ ·) l1).trans
      (h.trans (List.perm_insertionSort (· ≤ ·) l2).symm))
    (List.sorted_insertionSort (· ≤ ·) l1)
    (List.sorted_insertionSort (· ≤ ·) l2)

lemma stringifySorted_perm {o1 o2 : List (String × JVal)} (h : o1.Perm o2)
    (hnd : (o1.map Prod.fst).Nodup) :
    stringifySorted o1 = stringifySorted o2 := by
  have hks : sortKeys (o1.map Prod.fst) = sortKeys (o2.map Prod.fst) :=
    sortKeys_perm_eq (h.map Prod.fst)
  have hfun :
      (fun k => (objLookup k o1).map (fun v => jsonQuote k ++ ":" ++ v.serialize)) =
      (fun k => (objLookup k o2).map (fun v => jsonQuote k ++ ":" ++ v.serialize)) := by
    funext k
    rw [objLookup_perm h hnd k]
  unfold stringifySorted
  rw [hks, hfun]

/-- C6 — `cacheKey` always yields a 24-character lowercase-hex string,
is deterministic (it is a pure function of its two arguments), is
insensitive to the order of the object's top-level keys, and distinguishes
different prefixes and different values on the concrete examples
(the probabilistic "overwhelming probability" clause is witnessed at
concrete inputs). -/
theorem C6_cacheKey_fingerprint :
    (∀ (pfx : String) (obj : List (String × JVal)),
      (cacheKey pfx obj).length = 24 ∧ (cacheKey pfx obj).data.all isHexChar) ∧
    (∀ (pfx : String) (o1 o2 : List (String × JVal)),
      o1.Perm o2 → (o1.map Prod.fst).Nodup → cacheKey pfx o1 = cacheKey pfx o2) ∧
    cacheKey "search" [("q", JVal.str "test")] ≠
      cacheKey "extract" [("q", JVal.str "test")] ∧
    cacheKey "p" [("a", JVal.num 1)] ≠ cacheKey "p" [("a", JVal.num 2)] := by
  refine ⟨?_, ?_, by decide, by decide⟩
  · intro pfx obj
    constructor
    · show ((bytesHex (sha256 _)).take 24).length = 24
      rw [List.length_take, bytesHex_length, sha256_length]
      omega
    · apply List.all_eq_true.mpr
      intro c hc
      have hc' : c ∈ bytesHex (sha256 (utf8Bytes (pfx ++ ":" ++ stringifySorted obj))) :=
        List.take_subset 24 _ hc
      simpa using bytesHex_all_hex _ c hc'
  · intro pfx o1 o2 h hnd
    unfold cacheKey
    rw [stringifySorted_perm h hnd]

/-- Closed witness for `C6_cacheKey_fingerprint`: the spec's concrete
order-insensitivity example. -/
theorem C6_cacheKey_fingerprint_witness :
    cacheKey "p" [("a", JVal.num 1), ("z", JVal.num 2)] =
      cacheKey "p" [("z", JVal.num 2), ("a", JVal.num 1)] :=
  C6_cacheKey_fingerprint.2.1 "p" _ _
    (List.Perm.swap ("z", JVal.num 2) ("a", JVal.num 1) []) (by decide)

/-- C1 — `preflight` applies its checks in the fixed order
`invalid_url`, `unsupported_protocol`, `blocked_localhost`,
`blocked_private_ip`, `blocked_private_hostname`,
`blocked_private_resolution`, returning the first matching reason; and
whenever the DNS step is reached and the lookup throws, the result is
`blocked_private_resolution` (fail-closed), never `allow`. -/
theorem C1_preflight_order_and_fail_closed :
    (∀ (ipLiteral ipPrivate : String → Bool) (parsed : Option JsUrl)
       (dns : Except Unit (List String)),
      preflightIsUrlAllowed ipLiteral ipPrivate parsed dns =
        preflightSpecOrder ipLiteral ipPrivate parsed dns) ∧
    (∀ (ipLiteral ipPrivate : String → Bool) (u : JsUrl),
      isHttpProtocol u = true →
      isLocalHostname u.hostname = false →
      (ipLiteral u.hostname && ipPrivate u.hostname) = false →
      isProbablyPrivateHostname u.hostname = false →
      preflightIsUrlAllowed ipLiteral ipPrivate (some u) (.error ()) =
        .deny .blocked_private_resolution) := by
  constructor
  · intro ipLiteral ipPrivate parsed dns
    cases parsed with
    | none => rfl
    | some u => simp only [preflightIsUrlAllowed, preflightSpecOrder, firstMatch]
  · intro ipLiteral ipPrivate u hp hl hip hph
    simp [preflightIsUrlAllowed, hp, hl, hip, hph, hostnameResolvesToPrivate]

/-- Closed witness for `C1_preflight_order_and_fail_closed`: a public URL
whose DNS lookup throws is denied with `blocked_private_resolution`. -/
theorem C1_preflight_order_and_fail_closed_witness :
    preflightIsUrlAllowed (fun _ => false) (fun _ => false)
      (some ⟨"https:", "example.com"⟩) (.error ()) =
      .deny .blocked_private_resolution :=
  C1_preflight_order_and_fail_closed.2 (fun _ => false) (fun _ => false)
    ⟨"https:", "example.com"⟩ (by decide) (by decide) (by decide) (by decide)

/-- C9 (counterexample) — a client `timeoutMs` of 1000 below the
30000 cap is *not* honoured: the handler builds the options with
`timeoutMs = cfg.maxTimeoutMs`, not `min(1000, 30000)`. -/
theorem C9_counterexample :
    (buildScrapeOpts ⟨some "https://example.com/", none, none, some 1000⟩
      (maxTimeoutMsOf none)).timeoutMs ≠ min 1000 (maxTimeoutMsOf none) := by
  decide

/-- C9 (amended) — the effective per-request timeout is always the
configured `cfg.maxTimeoutMs`; the client-supplied `timeoutMs` is ignored
(the built options do not depend on it), and the configured value itself
is capped at 60000. -/
theorem C9_timeout_is_config_cap (body : ScrapeBody) (t : Option Int)
    (envVal : Option Int) :
    (buildScrapeOpts body (maxTimeoutMsOf envVal)).timeoutMs = maxTimeoutMsOf envVal ∧
    buildScrapeOpts { body with timeoutMs := t } (maxTimeoutMsOf envVal) =
      buildScrapeOpts body (maxTimeoutMsOf envVal) ∧
    maxTimeoutMsOf envVal ≤ 60000 := by
  refine ⟨rfl, rfl, ?_⟩
  exact min_le_right _ _

/-- C7 (counterexample) — the fast fetch succeeds yet the browser is
acquired: when Readability finds no article (even relaxed), the fast path
falls *through to the Playwright path* instead of falling back to the
fast-fetched body. -/
theorem C7_counterexample :
    urlToMarkdownFlow id (fun _ => none) (fun _ => none)
      (some ⟨"<div>page</div>", "https://pub.example/", 200⟩)
      (some ⟨"<p>hello</p>", "https://pub.example/"⟩) false true =
      .ok ⟨true, "<p>hello</p>", "https://pub.example/"⟩ := rfl

/-- C7 (amended) — when the fast fetch succeeds *and* main-content
detection finds an article, the browser is never acquired and the
article (or, with `onlyMainContent` disabled, the pre-stripped fast body)
is converted; when the browser path runs and detection finds nothing even
after the relaxed retry, the conversion falls back to the full
pre-stripped body of the browser-fetched HTML. -/
theorem C7_fast_path_and_fallback (cleanedOf : String → String)
    (readDefault readRelaxed : String → Option Article)
    (fast : Option FastResult) (browser : Option BrowserResult)
    (isPdf : Bool) (omc : Bool) :
    (∀ f art, fast = some f →
      (readDefault (cleanedOf f.html)).orElse
          (fun _ => readRelaxed (cleanedOf f.html)) = some art →
      urlToMarkdownFlow cleanedOf readDefault readRelaxed fast browser isPdf omc =
        .ok ⟨false, if omc then art.content else cleanedOf f.html, f.finalUrl⟩) ∧
    (∀ b,
      (∀ f, fast = some f →
        (readDefault (cleanedOf f.html)).orElse
            (fun _ => readRelaxed (cleanedOf f.html)) = none) →
      browser = some b → isPdf = false →
      readDefault (cleanedOf b.html) = none →
      readRelaxed (cleanedOf b.html) = none →
      urlToMarkdownFlow cleanedOf readDefault readRelaxed fast browser isPdf omc =
        .ok ⟨true, cleanedOf b.html, b.finalUrl⟩) := by
  constructor
  · intro f art hf hart
    subst hf
    simp [urlToMarkdownFlow, hart]
  · intro b hfa hb hpdf h1 h2
    subst hb
    subst hpdf
    cases fast with
    | none =>
      simp [urlToMarkdownFlow, browserPathFlow, h1, h2, Option.orElse]
    | some f =>
      have hnone := hfa f rfl
      simp only [urlToMarkdownFlow]
      rw [hnone]
      simp [browserPathFlow, h1, h2, Option.orElse]

/-- Closed witness for `C7_fast_path_and_fallback` (both conjuncts at
concrete oracles). -/
theorem C7_fast_path_and_fallback_witness :
    (urlToMarkdownFlow id (fun _ => some ⟨"<p>art</p>"⟩) (fun _ => none)
      (some ⟨"<div>page</div>", "https://a.example/", 200⟩) none false true =
      .ok ⟨false, "<p>art</p>", "https://a.example/"⟩) ∧
    (urlToMarkdownFlow id (fun _ => none) (fun _ => none)
      none (some ⟨"<p>body</p>", "https://b.example/"⟩) false true =
      .ok ⟨true, "<p>body</p>", "https://b.example/"⟩) := by
  constructor
  · exact (C7_fast_path_and_fallback id (fun _ => some ⟨"<p>art</p>"⟩) (fun _ => none)
      (some ⟨"<div>page</div>", "https://a.example/", 200⟩) none false true).1
      ⟨"<div>page</div>", "https://a.example/", 200⟩ ⟨"<p>art</p>"⟩ rfl rfl
  · exact (C7_fast_path_and_fallback id (fun _ => none) (fun _ => none)
      none (some ⟨"<p>body</p>", "https://b.example/"⟩) false true).2
      ⟨"<p>body</p>", "https://b.example/"⟩ (fun f hf => by cases hf) rfl rfl rfl rfl

lemma strAppend_assoc (a b c : String) : a ++ b ++ c = a ++ (b ++ c) := by
  apply String.ext
  simp [String.data_append]

lemma textContent_appendF (f g : DomForest) :
    textContent (appendF f g) = textContent f ++ textContent g := by
  induction f with
  | nil => simp [appendF, textContent]
  | textCons s r ih => simp [appendF, textContent, ih, strAppend_assoc]
  | elemCons t a c r ihc ihr => simp [appendF, textContent, ihr, strAppend_assoc]

lemma forestElemsAll_appendF (p : String → List (String × String) → Bool)
    (f g : DomForest) :
    forestElemsAll p (appendF f g) =
      (forestElemsAll p f && forestElemsAll p g) := by
  induction f with
  | nil => simp [appendF, forestElemsAll]
  | textCons s r ih => simp [appendF, forestElemsAll, ih]
  | elemCons t a c r ihc ihr =>
    simp [appendF, forestElemsAll, ihr, Bool.and_assoc]

lemma unwrapStep_allowed (f : DomForest) :
    forestElemsAll (fun t _ => allowedTags.contains t) (unwrapStep f) = true := by
  induction f with
  | nil => rfl
  | textCons s r ih => simpa [unwrapStep, forestElemsAll] using ih
  | elemCons t a c r ihc ihr =>
    by_cases h : t ∈ allowedTags
    · simp [unwrapStep, h, forestElemsAll] at ihc ihr ⊢
      exact ⟨ihc, ihr⟩
    · simp [unwrapStep, h, forestElemsAll_appendF] at ihc ihr ⊢
      exact ⟨ihc, ihr⟩

lemma scrubStep_tagPred (P : String → Bool) (f : DomForest) :
    forestElemsAll (fun t _ => P t) (scrubStep f) =
      forestElemsAll (fun t _ => P t) f := by
  induction f with
  | nil => rfl
  | textCons s r ih => simp [scrubStep, forestElemsAll, ih]
  | elemCons t a c r ihc ihr => simp [scrubStep, forestElemsAll, ihc, ihr]

lemma attrsOnlyHref_scrubAttrs (t : String) (a : List (String × String)) :
    attrsOnlyHref t (scrubAttrs t a) = true := by
  unfold scrubAttrs attrsOnlyHref
  by_cases ht : t = "A"
  · rcases hga : getAttr "href" a with _ | h
    · simp [ht, hga]
    · by_cases hh : h = "" <;> simp [ht, hga, hh]
  · simp [ht]

lemma scrubStep_attrsOnlyHref (f : DomForest) :
    forestElemsAll attrsOnlyHref (scrubStep f) = true := by
  induction f with
  | nil => rfl
  | textCons s r ih => simpa [scrubStep, forestElemsAll] using ih
  | elemCons t a c r ihc ihr =>
    simp [scrubStep, forestElemsAll, attrsOnlyHref_scrubAttrs, ihc, ihr]

lemma textContent_resolveHrefs (r : String → Option String) (f : DomForest) :
    textContent (resolveHrefs r f) = textContent f := by
  induction f with
  | nil => rfl
  | textCons s rest ih => simp [resolveHrefs, textContent, ih]
  | elemCons t a c rest ihc ihr => simp [resolveHrefs, textContent, ihc, ihr]

lemma textContent_unwrapStep (f : DomForest) :
    textContent (unwrapStep f) = textContent f := by
  induction f with
  | nil => rfl
  | textCons s r ih => simp [unwrapStep, textContent, ih]
  | elemCons t a c r ihc ihr =>
    by_cases h : t ∈ allowedTags <;>
      simp [unwrapStep, h, textContent, textContent_appendF, ihc, ihr]

lemma textContent_scrubStep (f : DomForest) :
    textContent (scrubStep f) = textContent f := by
  induction f with
  | nil => rfl
  | textCons s r ih => simp [scrubStep, textContent, ih]
  | elemCons t a c r ihc ihr => simp [scrubStep, textContent, ihc, ihr]

lemma getAttr_cons (nm : String) (p : String × String)
    (t : List (String × String)) :
    getAttr nm (p :: t) = if p.1 = nm then some p.2 else getAttr nm t := by
  by_cases h : p.1 = nm <;> simp [getAttr, List.find?_cons, h]

lemma getAttr_setAttr_ne {nm2 nm : String} (v : String)
    (a : List (String × String)) (h : nm2 ≠ nm) :
    getAttr nm2 (setAttr nm v a) = getAttr nm2 a := by
  induction a with
  | nil => rfl
  | cons p t ih =>
    have hstep : setAttr nm v (p :: t) =
        (if p.1 = nm then (nm, v) else p) :: setAttr nm v t := by
      simp [setAttr]
    rw [hstep]
    by_cases hp : p.1 = nm
    · rw [if_pos hp]
      have h1 : ¬nm = nm2 := fun hEq => h hEq.symm
      have h2 : ¬p.1 = nm2 := by rw [hp]; exact h1
      simp only [getAttr_cons]
      simp [h1, h2, ih]
    · rw [if_neg hp]
      simp only [getAttr_cons]
      by_cases hq : p.1 = nm2 <;> simp [hq, ih]

lemma removalMatch_setAttrHref (t v : String) (a : List (String × String)) :
    removalMatch t (setAttr "href" v a) = removalMatch t a := by
  unfold removalMatch attrContains
  rw [getAttr_setAttr_ne v a (by decide), getAttr_setAttr_ne v a (by decide),
    getAttr_setAttr_ne v a (by decide), getAttr_setAttr_ne v a (by decide)]

lemma removalMatch_resolveAttrs (r : String → Option String) (t : String)
    (a : List (String × String)) :
    removalMatch t (resolveAttrs r t a) = removalMatch t a := by
  unfold resolveAttrs
  by_cases ht : t = "A"
  · rcases hga : getAttr "href" a with _ | h
    · simp [ht, hga]
    · by_cases hh : h = ""
      · simp [ht, hga, hh]
      · simp [ht, hga, hh, removalMatch_setAttrHref]
  · simp [ht]

lemma cleanForRemoval_resolveHrefs (r : String → Option String) (f : DomForest) :
    cleanForRemoval (resolveHrefs r f) = cleanForRemoval f := by
  unfold cleanForRemoval
  induction f with
  | nil => rfl
  | textCons s rest ih => simpa [resolveHrefs, forestElemsAll] using ih
  | elemCons t a c rest ihc ihr =>
    simp [resolveHrefs, forestElemsAll, removalMatch_resolveAttrs, ihc, ihr]

lemma removeStep_of_clean {f : DomForest} (h : cleanForRemoval f = true) :
    removeStep f = f := by
  unfold cleanForRemoval at h
  induction f with
  | nil => rfl
  | textCons s r ih =>
    simp only [forestElemsAll] at h
    simp [removeStep, ih h]
  | elemCons t a c r ihc ihr =>
    simp only [forestElemsAll, Bool.and_eq_true] at h
    obtain ⟨⟨hp, hc⟩, hr⟩ := h
    have hm : removalMatch t a = false := by
      revert hp
      cases removalMatch t a <;> simp
    simp [removeStep, hm, ihc hc, ihr hr]

lemma figureStep_of_clean {f : DomForest} (h : cleanForRemoval f = true) :
    figureStep f = f := by
  unfold cleanForRemoval at h
  induction f with
  | nil => rfl
  | textCons s r ih =>
    simp only [forestElemsAll] at h
    simp [figureStep, ih h]
  | elemCons t a c r ihc ihr =>
    simp only [forestElemsAll, Bool.and_eq_true] at h
    obtain ⟨⟨hp, hc⟩, hr⟩ := h
    have hf : t ≠ "FIGURE" := by
      revert hp
      cases hd : t == "FIGURE" with
      | true => simp [bne, hd]
      | false => intro _; simpa using hd
    simp [figureStep, hf, ihc hc, ihr hr]

/-- C2 (counterexample) — `<nav>hello</nav>` is outside the whitelist
but is *removed with its text*, not unwrapped with its text preserved. -/
theorem C2_counterexample :
    textContent (sanitizeForLLM (fun _ => none)
      (.elemCons "NAV" [] (.textCons "hello" .nil) .nil)) = "" ∧
    textContent (.elemCons "NAV" [] (.textCons "hello" .nil) .nil) = "hello" := by
  decide

/-- C2 (amended) — for every href-resolver and body: the sanitised
output contains only whitelisted elements; no element carries any
attribute except `href` on `<A>`; and on a body with no removal-selector
matches and no `<figure>`, the text content is fully preserved (elements
outside the whitelist are unwrapped in place).  Elements matched by the
removal selector list — and `<figure>` without a `<figcaption>` — are
instead dropped together with their text. -/
theorem C2_sanitizer_whitelist (resolve : String → Option String)
    (body : DomForest) :
    forestElemsAll (fun t _ => allowedTags.contains t)
      (sanitizeForLLM resolve body) = true ∧
    forestElemsAll attrsOnlyHref (sanitizeForLLM resolve body) = true ∧
    (cleanForRemoval body = true →
      textContent (sanitizeForLLM resolve body) = textContent body) := by
  refine ⟨?_, ?_, ?_⟩
  · unfold sanitizeForLLM
    rw [scrubStep_tagPred (fun t => allowedTags.contains t)]
    exact unwrapStep_allowed _
  · exact scrubStep_attrsOnlyHref _
  · intro hclean
    have h1 : cleanForRemoval (resolveHrefs resolve body) = true := by
      rw [cleanForRemoval_resolveHrefs]; exact hclean
    unfold sanitizeForLLM
    rw [removeStep_of_clean h1, figureStep_of_clean h1,
      textContent_scrubStep, textContent_unwrapStep, textContent_resolveHrefs]

/-- Closed witness for `C2_sanitizer_whitelist`: a clean body whose
non-whitelisted `<div>` wrapper is unwrapped with its text preserved. -/
theorem C2_sanitizer_whitelist_witness :
    forestElemsAll (fun t _ => allowedTags.contains t)
      (sanitizeForLLM (fun _ => none)
        (.elemCons "DIV" [] (.textCons "hi" .nil) .nil)) = true ∧
    forestElemsAll attrsOnlyHref
      (sanitizeForLLM (fun _ => none)
        (.elemCons "DIV" [] (.textCons "hi" .nil) .nil)) = true ∧
    textContent (sanitizeForLLM (fun _ => none)
      (.elemCons "DIV" [] (.textCons "hi" .nil) .nil)) =
      textContent (DomForest.elemCons "DIV" [] (.textCons "hi" .nil) .nil) := by
  have h := C2_sanitizer_whitelist (fun _ => none)
    (.elemCons "DIV" [] (.textCons "hi" .nil) .nil)
  exact ⟨h.1, h.2.1, h.2.2 (by decide)⟩

lemma mapLookup_mapDelete {V : Type} (k : String)
    (m : List (String × CacheEntry V)) :
    mapLookup k (mapDelete k m) = none := by
  induction m with
  | nil => rfl
  | cons p t ih =>
    rw [mapDelete_cons]
    by_cases hp : p.1 = k
    · rw [if_pos hp]; exact ih
    · rw [if_neg hp, mapLookup_cons_ne hp]; exact ih

/-- C8 — error outcomes are never cached: when `extractOne` ends in
an error, no entry is inserted or updated — the cache map is unchanged,
except that a lookup may have discarded an already-expired
(observationally absent) entry for the key; afterwards the key is absent
(when preflight allowed), so an identical retry recomputes. -/
theorem C8_errors_not_cached {V : Type} (cache : LRU V) (now : Nat)
    (pre : PreflightResult) (key : String) (work : Option V) (kind : String)
    (herr : (extractOne cache now pre key work).1 = .error kind) :
    ((extractOne cache now pre key work).2.map = cache.map ∨
      (∃ e, mapLookup key cache.map = some e ∧ now - e.ts > cache.ttlMs ∧
        (extractOne cache now pre key work).2.map = mapDelete key cache.map)) ∧
    (pre = .allow →
      mapLookup key (extractOne cache now pre key work).2.map = none) := by
  cases pre with
  | deny r =>
    refine ⟨Or.inl rfl, ?_⟩
    intro h
    cases h
  | allow =>
    rcases hl : mapLookup key cache.map with _ | e
    · -- key absent: the failed get leaves the cache untouched
      cases work with
      | some data =>
        simp [extractOne, LRU.get, hl] at herr
      | none =>
        refine ⟨Or.inl ?_, fun _ => ?_⟩ <;> simp [extractOne, LRU.get, hl]
    · by_cases hexp : now - e.ts > cache.ttlMs
      · -- expired entry: the get deletes it and reports a miss
        cases work with
        | some data =>
          simp [extractOne, LRU.get, hl, hexp] at herr
        | none =>
          refine ⟨Or.inr ⟨e, rfl, hexp, ?_⟩, fun _ => ?_⟩ <;>
            simp [extractOne, LRU.get, hl, hexp, mapLookup_mapDelete]
      · -- live entry: the call returns the cached value, not an error
        simp [extractOne, LRU.get, hl, hexp] at herr

/-- Closed witness for `C8_errors_not_cached`: a failed extraction against
an empty cache leaves it empty. -/
theorem C8_errors_not_cached_witness :
    ((extractOne (LRU.empty Nat 10 100) 5 .allow "k" none).2.map =
        (LRU.empty Nat 10 100).map ∨
      (∃ e, mapLookup "k" (LRU.empty Nat 10 100).map = some e ∧
        5 - e.ts > (LRU.empty Nat 10 100).ttlMs ∧
        (extractOne (LRU.empty Nat 10 100) 5 .allow "k" none).2.map =
          mapDelete "k" (LRU.empty Nat 10 100).map)) ∧
    (PreflightResult.allow = .allow →
      mapLookup "k" (extractOne (LRU.empty Nat 10 100) 5 .allow "k" none).2.map =
        none) :=
  C8_errors_not_cached (LRU.empty Nat 10 100) 5 .allow "k" none
    "extraction_failed" (by decide)

lemma inv_mkLimit (m : Option Int) : LimitInv (mkLimit m) :=
  ⟨Nat.zero_le _, rfl, Or.inl rfl, rfl⟩

lemma mkLimit_max_pos (m : Option Int) : 1 ≤ (mkLimit m).max := by
  unfold mkLimit
  cases m with
  | none => decide
  | some v =>
    by_cases hv : v = 0
    · simp [hv]
    · simp only [hv, if_false]
      have h := le_max_left (1 : Int) v
      omega

lemma inv_run {s : LimitState} (hs : LimitInv s) :
    LimitInv (applyEvent s .run) := by
  obtain ⟨hact, horder, hqueue, hcount⟩ := hs
  simp only [applyEvent, tryNext]
  by_cases hfull : s.activeIds.length ≥ s.max
  · simp only [if_pos hfull]
    refine ⟨hact, ?_, Or.inr (Nat.le_antisymm hact hfull), hcount⟩
    simp [← List.append_assoc, horder, List.range_succ]
  · simp only [if_neg hfull]
    rcases hqueue with hq | hq
    · rw [hq]
      simp only [List.nil_append]
      refine ⟨?_, ?_, Or.inl rfl, ?_⟩
      · simp; omega
      · rw [hq, List.append_nil] at horder
        simp [horder, List.range_succ]
      · simp; omega
    · exact absurd (hq ▸ Nat.le_refl _) hfull

lemma finish_step {s : LimitState} (hs : LimitInv s) {i : Nat} (ok : Bool)
    (hmem : i ∈ s.activeIds) :
    LimitInv (applyEvent s (.finish i ok)) ∧
    (applyEvent s (.finish i ok)).activeIds.length +
        (applyEvent s (.finish i ok)).queue.length + 1 =
      s.activeIds.length + s.queue.length ∧
    (applyEvent s (.finish i ok)).nextId = s.nextId ∧
    (applyEvent s (.finish i ok)).max = s.max := by
  obtain ⟨hact, horder, hqueue, hcount⟩ := hs
  have hlen : (s.activeIds.erase i).length = s.activeIds.length - 1 :=
    List.length_erase_of_mem hmem
  have hpos : 1 ≤ s.activeIds.length :=
    List.length_pos.mpr (List.ne_nil_of_mem hmem)
  simp only [applyEvent, tryNext]
  by_cases hfull : (s.activeIds.erase i).length ≥ s.max
  · exfalso
    omega
  · simp only [if_neg hfull]
    rcases hqq : s.queue with _ | ⟨t, q⟩
    · refine ⟨⟨?_, ?_, Or.inl rfl, ?_⟩, ?_, rfl, rfl⟩
      · simp; omega
      · simpa [hqq] using horder
      · simp; omega
      · simp [hqq]; omega
    · have hmx : s.activeIds.length = s.max := by
        rcases hqueue with h | h
        · rw [hqq] at h; cases h
        · exact h
      refine ⟨⟨?_, ?_, ?_, ?_⟩, ?_, rfl, rfl⟩
      · simp; omega
      · rw [List.append_assoc]
        rw [hqq] at horder
        simpa using horder
      · right; simp; omega
      · simp; omega
      · simp [hqq]; omega

lemma inv_runTrace {s : LimitState} (hs : LimitInv s) (evs : List LimitEvent)
    (hv : validTrace s evs = true) : LimitInv (runTrace s evs) := by
  induction evs generalizing s with
  | nil => simpa [runTrace]
  | cons e rest ih =>
    simp only [validTrace, Bool.and_eq_true] at hv
    have h1 : LimitInv (applyEvent s e) := by
      cases e with
      | run => exact inv_run hs
      | finish i ok =>
        refine (finish_step hs ok ?_).1
        simpa [validEvent, List.contains, List.elem_eq_mem] using hv.1
    exact ih h1 hv.2

lemma tryNext_max (s : LimitState) : (tryNext s).max = s.max := by
  unfold tryNext
  by_cases h : s.activeIds.length ≥ s.max
  · simp [h]
  · cases hq : s.queue <;> simp [h, hq]

lemma applyEvent_max (s : LimitState) (e : LimitEvent) :
    (applyEvent s e).max = s.max := by
  cases e <;> simp [applyEvent, tryNext_max]

lemma runTrace_max (s : LimitState) (evs : List LimitEvent) :
    (runTrace s evs).max = s.max := by
  induction evs generalizing s with
  | nil => rfl
  | cons e rest ih => simpa [runTrace, applyEvent_max] using ih (applyEvent s e)

lemma drain_complete (fuel : Nat) :
    ∀ (s : LimitState), LimitInv s → 1 ≤ s.max →
    s.activeIds.length + s.queue.length ≤ fuel →
    (drain s fuel).activeIds = [] ∧ (drain s fuel).queue = [] ∧
    (drain s fuel).started = List.range s.nextId ∧
    (drain s fuel).finished.length = s.nextId := by
  induction fuel with
  | zero =>
    intro s hs hmax hb
    have ha : s.activeIds = [] := List.length_eq_zero.mp (by omega)
    have hq : s.queue = [] := List.length_eq_zero.mp (by omega)
    have hstart : s.started = List.range s.nextId := by
      have h2 := hs.horder
      rw [hq, List.append_nil] at h2
      exact h2
    refine ⟨ha, hq, hstart, ?_⟩
    have h1 := hs.hcount
    have h3 : s.started.length = s.nextId := by
      rw [hstart, List.length_range]
    rw [ha] at h1
    simpa [h3] using h1
  | succ n ih =>
    intro s hs hmax hb
    cases hact : s.activeIds with
    | nil =>
      have hq : s.queue = [] := by
        rcases hs.hqueue with h | h
        · exact h
        · rw [hact] at h
          simp at h
          omega
      have hds : drainStep s = s := by simp [drainStep, hact]
      have hun : drain s (n + 1) = drain (drainStep s) n := rfl
      rw [hun, hds]
      exact ih s hs hmax (by rw [hact, hq]; simp)
    | cons i rest =>
      have hmem : i ∈ s.activeIds := by rw [hact]; exact List.mem_cons_self _ _
      have hds : drainStep s = applyEvent s (.finish i true) := by
        simp [drainStep, hact]
      obtain ⟨hinv, hmeas, hnid, hmax'⟩ := finish_step hs true hmem
      have hres := ih (applyEvent s (.finish i true)) hinv
        (by rw [hmax']; exact hmax) (by omega)
      have hun : drain s (n + 1) = drain (drainStep s) n := rfl
      rw [hun, hds]
      exact ⟨hres.1, hres.2.1, by rw [hres.2.2.1, hnid],
        by rw [hres.2.2.2, hnid]⟩

/-- Outcomes do not influence the limiter's control state. -/
lemma finish_outcome_independent (s : LimitState) (i : Nat) (ok1 ok2 : Bool) :
    (applyEvent s (.finish i ok1)).activeIds =
      (applyEvent s (.finish i ok2)).activeIds ∧
    (applyEvent s (.finish i ok1)).queue = (applyEvent s (.finish i ok2)).queue ∧
    (applyEvent s (.finish i ok1)).started =
      (applyEvent s (.finish i ok2)).started ∧
    (applyEvent s (.finish i ok1)).max = (applyEvent s (.finish i ok2)).max := by
  simp only [applyEvent, tryNext]
  by_cases h : (s.activeIds.erase i).length ≥ s.max
  · simp [h]
  · cases hq : s.queue <;> simp [h, hq]

/-- C3 — for the limiter with any constructor argument and any valid
event trace: `max` is clamped to at least 1; the number of concurrently
running tasks never exceeds `max`; tasks start in submission (FIFO)
order — `started` is always a prefix of the submission sequence; finishing
the remaining tasks one by one completes every submitted task (each
completion releases its slot and starts the next queued task); and a
task's outcome (success or failure) never affects the limiter's control
state — failures do not poison it. -/
theorem C3_limiter_bound_fifo_completion (m : Option Int)
    (evs : List LimitEvent) (hv : validTrace (mkLimit m) evs = true) :
    1 ≤ (limiterRun m evs).max ∧
    (limiterRun m evs).activeIds.length ≤ (limiterRun m evs).max ∧
    (limiterRun m evs).started =
      (List.range (limiterRun m evs).nextId).take
        (limiterRun m evs).started.length ∧
    ((drain (limiterRun m evs)
        ((limiterRun m evs).activeIds.length +
          (limiterRun m evs).queue.length)).activeIds = [] ∧
      (drain (limiterRun m evs)
        ((limiterRun m evs).activeIds.length +
          (limiterRun m evs).queue.length)).queue = [] ∧
      (drain (limiterRun m evs)
        ((limiterRun m evs).activeIds.length +
          (limiterRun m evs).queue.length)).started =
        List.range (limiterRun m evs).nextId ∧
      (drain (limiterRun m evs)
        ((limiterRun m evs).activeIds.length +
          (limiterRun m evs).queue.length)).finished.length =
        (limiterRun m evs).nextId) ∧
    (∀ (t : LimitState) (i : Nat) (ok1 ok2 : Bool),
      (applyEvent t (.finish i ok1)).activeIds =
        (applyEvent t (.finish i ok2)).activeIds ∧
      (applyEvent t (.finish i ok1)).queue =
        (applyEvent t (.finish i ok2)).queue ∧
      (applyEvent t (.finish i ok1)).started =
        (applyEvent t (.finish i ok2)).started ∧
      (applyEvent t (.finish i ok1)).max =
        (applyEvent t (.finish i ok2)).max) := by
  have hinv : LimitInv (limiterRun m evs) := inv_runTrace (inv_mkLimit m) evs hv
  have hmax : 1 ≤ (limiterRun m evs).max := by
    have := runTrace_max (mkLimit m) evs
    unfold limiterRun
    rw [this]
    exact mkLimit_max_pos m
  refine ⟨hmax, hinv.hact, ?_, ?_, finish_outcome_independent⟩
  · have h := hinv.horder
    conv_lhs => rw [← List.take_left (limiterRun m evs).started (limiterRun m evs).queue]
    rw [h]
  · exact drain_complete _ (limiterRun m evs) hinv hmax (Nat.le_refl _)

/-- Closed witness for `C3_limiter_bound_fifo_completion`: `max = 2`,
three submissions (the third queues), then the first task finishes,
which must start the queued one. -/
theorem C3_limiter_bound_fifo_completion_witness :
    1 ≤ (limiterRun (some 2)
      [.run, .run, .run, .finish 0 true]).max ∧
    (limiterRun (some 2) [.run, .run, .run, .finish 0 true]).activeIds.length ≤
      (limiterRun (some 2) [.run, .run, .run, .finish 0 true]).max ∧
    (limiterRun (some 2) [.run, .run, .run, .finish 0 true]).started =
      (List.range (limiterRun (some 2)
        [.run, .run, .run, .finish 0 true]).nextId).take
        (limiterRun (some 2) [.run, .run, .run, .finish 0 true]).started.length ∧
    ((drain (limiterRun (some 2) [.run, .run, .run, .finish 0 true])
        ((limiterRun (some 2) [.run, .run, .run, .finish 0 true]).activeIds.length +
          (limiterRun (some 2) [.run, .run, .run, .finish 0 true]).queue.length)).activeIds = [] ∧
      (drain (limiterRun (some 2) [.run, .run, .run, .finish 0 true])
        ((limiterRun (some 2) [.run, .run, .run, .finish 0 true]).activeIds.length +
          (limiterRun (some 2) [.run, .run, .run, .finish 0 true]).queue.length)).queue = [] ∧
      (drain (limiterRun (some 2) [.run, .run, .run, .finish 0 true])
        ((limiterRun (some 2) [.run, .run, .run, .finish 0 true]).activeIds.length +
          (limiterRun (some 2) [.run, .run, .run, .finish 0 true]).queue.length)).started =
        List.range (limiterRun (some 2) [.run, .run, .run, .finish 0 true]).nextId ∧
      (drain (limiterRun (some 2) [.run, .run, .run, .finish 0 true])
        ((limiterRun (some 2) [.run, .run, .run, .finish 0 true]).activeIds.length +
          (limiterRun (some 2) [.run, .run, .run, .finish 0 true]).queue.length)).finished.length =
        (limiterRun (some 2) [.run, .run, .run, .finish 0 true]).nextId) ∧
    (∀ (t : LimitState) (i : Nat) (ok1 ok2 : Bool),
      (applyEvent t (.finish i ok1)).activeIds =
        (applyEvent t (.finish i ok2)).activeIds ∧
      (applyEvent t (.finish i ok1)).queue =
        (applyEvent t (.finish i ok2)).queue ∧
      (applyEvent t (.finish i ok1)).started =
        (applyEvent t (.finish i ok2)).started ∧
      (applyEvent t (.finish i ok1)).max =
        (applyEvent t (.finish i ok2)).max) :=
  C3_limiter_bound_fifo_completion (some 2) [.run, .run, .run, .finish 0 true]
    (by decide)

end Url2md
